import Mathlib

/-!
Verification of the typora-themes-gallery build pipeline
========================================================

This file gives a shallow embedding, in Lean, of the core of the
typora-themes-gallery repository: the theme-index build pipeline of
`scripts/update-themes.ts` together with the single-item stats lookup of
`services/githubService.ts`.  JavaScript strings are represented as
`String`/`List Char`, JavaScript `undefined`/`null` as `Option`, and the
network as explicit outcome parameters.  All definitions are executable and
follow the source line by line; theorems about the spec's claims follow the
definitions.
-/

namespace ThemeGallery

/-! ## JavaScript string primitives (on `List Char`)

The pipeline uses `trim`, `split`, `indexOf`, `startsWith`, `endsWith` and
`slice` on JS strings.  We model them structurally on `List Char`.
-/

/-- The whitespace class used by JS `String.prototype.trim` (restricted to the
ASCII whitespace characters that can actually occur in the descriptor data). -/
def isWSc (c : Char) : Bool :=
  c == ' ' || c == '\t' || c == '\n' || c == '\r' || c == '\x0b' || c == '\x0c'

/-- Drop trailing characters satisfying `p`. -/
def dropTrailWhile (p : Char → Bool) (l : List Char) : List Char :=
  (l.reverse.dropWhile p).reverse

/-- JS `s.trim()`. -/
def trimL (l : List Char) : List Char :=
  dropTrailWhile isWSc (l.dropWhile isWSc)

/-- JS `s.split(c)` for a single-character separator: splits at every
occurrence, keeping empty segments, always returning at least one segment. -/
def splitOnChar (c : Char) : List Char → List (List Char)
  | [] => [[]]
  | x :: xs =>
    if x == c then [] :: splitOnChar c xs
    else
      match splitOnChar c xs with
      | [] => [[x]]
      | y :: ys => (x :: y) :: ys

/-- JS `s.startsWith(p)`. -/
def sStartsWith (l p : List Char) : Bool := p.isPrefixOf l

/-- JS `s.endsWith(p)`. -/
def sEndsWith (l p : List Char) : Bool := p.reverse.isPrefixOf l.reverse

/-- JS `s.slice(0, -n)` (for `n ≤ length`; drops the last `n` characters). -/
def dropRightL (n : Nat) (l : List Char) : List Char := l.take (l.length - n)

/-- JS truthiness of a `string | undefined` value: `undefined` and the empty
string are falsy. -/
def jsTruthy (o : Option String) : Bool := o.getD "" != ""

/-- The string content of a JS `string | undefined` value in a context where
it has been checked truthy (`getD ""` is the identity there). -/
def jsStr (o : Option String) : String := o.getD ""

/-- JS `a || b` on two `string | undefined` values. -/
def jsOrS (a b : Option String) : Option String := if jsTruthy a then a else b

/-! ## Repository reference resolver (`getRepoInfoFromUrl`)

Source: `scripts/update-themes.ts` lines 150-169 (the copy in
`services/githubService.ts` lines 52-70 is identical).
-/

/-- Model of the WHATWG `URL` constructor used by `getRepoInfoFromUrl` — a
platform library, not repository code — restricted to the fragment the
resolver consults: hostname and pathname of an absolute `http(s)` URL.
Following WHATWG parsing: the scheme prefix is mandatory (any other string
fails to parse, as the resolver's `catch` expects), the authority runs to the
first `/`, `?` or `#`, userinfo (up to the last `@`) and port (after `:`) are
not part of the hostname, hostnames are lower-cased, and an empty path reads
as `/`.  Returns `(hostname, pathname)` or `none` on parse failure. -/
def parseURLc (l : List Char) : Option (List Char × List Char) :=
  let rest? :=
    if sStartsWith l "https://".toList then some (l.drop 8)
    else if sStartsWith l "http://".toList then some (l.drop 7)
    else none
  match rest? with
  | none => none
  | some r =>
    let auth := r.takeWhile (fun c => !(c == '/' || c == '?' || c == '#'))
    let path := (r.drop auth.length).takeWhile (fun c => !(c == '?' || c == '#'))
    if auth.isEmpty then none
    else
      let hostPort := (auth.reverse.takeWhile (fun c => c != '@')).reverse
      let host := (hostPort.takeWhile (fun c => c != ':')).map Char.toLower
      some (host, if path.isEmpty then ['/'] else path)

/-- `update-themes.ts` lines 153-155: trim, strip a trailing `.git`, then
strip a trailing `/`. -/
def cleanRepoUrl (l : List Char) : List Char :=
  let c0 := trimL l
  let c1 := if sEndsWith c0 ".git".toList then dropRightL 4 c0 else c0
  if sEndsWith c1 "/".toList then dropRightL 1 c1 else c1

/-- `update-themes.ts` lines 157-168: parse the cleaned URL, reject hostnames
other than `github.com`/`www.github.com`, split the path into non-empty
segments, and return the first two as `(owner, repo)`. -/
def repoFromCleaned (l : List Char) : Option (String × String) :=
  match parseURLc l with
  | none => none
  | some (host, path) =>
    if host = "github.com".toList ∨ host = "www.github.com".toList then
      match (splitOnChar '/' path).filter (fun s => !s.isEmpty) with
      | o :: r :: _ => some (String.mk o, String.mk r)
      | _ => none
    else none

/-- `getRepoInfoFromUrl` (`update-themes.ts` lines 150-169): `undefined` (and,
per JS truthiness, the empty string) resolve to `null`. -/
def getRepoInfoFromUrl (url : Option String) : Option (String × String) :=
  match url with
  | none => none
  | some u => if u.isEmpty then none else repoFromCleaned (cleanRepoUrl u.toList)

/-! ## Front-matter parser (`parseFrontmatter`)

Source: `scripts/update-themes.ts` lines 121-148.
-/

/-- JS `line.indexOf(':')` plus the two `slice` calls: split a line at its
first colon, `none` when the line has no colon. -/
def splitAtColon : List Char → Option (List Char × List Char)
  | [] => none
  | c :: rest =>
    if c = ':' then some ([], rest)
    else (splitAtColon rest).map (fun p => (c :: p.1, p.2))

/-- JS `data[key] = value` on a plain object: overwrite in place when the key
exists (keeping its original position), append otherwise. -/
def insertKV (m : List (List Char × List Char)) (k v : List Char) :
    List (List Char × List Char) :=
  match m with
  | [] => [(k, v)]
  | p :: rest => if p.1 = k then (k, v) :: rest else p :: insertKV rest k v

/-- `update-themes.ts` line 137: the value is wholly wrapped in double, or
wholly wrapped in single, quotes. -/
def quoteWrapped (v : List Char) : Bool :=
  (v.head? == some '"' && v.getLast? == some '"') ||
    (v.head? == some '\'' && v.getLast? == some '\'')

/-- `update-themes.ts` lines 137-139: strip one layer of wrapping quotes
(JS `value.slice(1, -1)`). -/
def stripQuotes (v : List Char) : List Char :=
  if quoteWrapped v then (v.drop 1).dropLast else v

/-- One optional `\r` immediately before the `\n` is consumed by the JS
line-split regex `/\r?\n/`. -/
def dropTrailingCR (l : List Char) : List Char :=
  if l.getLast? = some '\r' then l.dropLast else l

/-- Strip the `\r` of a `\r\n` pair from every segment except the last (the
last segment is not followed by a `\n`, so its `\r` stays). -/
def adjustCR : List (List Char) → List (List Char)
  | [] => []
  | [l] => [l]
  | l :: ls => dropTrailingCR l :: adjustCR ls

/-- JS `text.split(/\r?\n/)` (`update-themes.ts` line 122). -/
def fmLines (text : List Char) : List (List Char) :=
  adjustCR (splitOnChar '\n' text)

/-- The loop of `update-themes.ts` lines 128-146: process lines until the
closing delimiter (or the end), splitting each at its first colon, trimming
key and value and unquoting the value; lines without a colon are skipped. -/
def parseFMLoop : List (List Char) → List (List Char × List Char) →
    List (List Char × List Char)
  | [], data => data
  | line :: rest, data =>
    if trimL line = ['-', '-', '-'] then data
    else
      match splitAtColon line with
      | none => parseFMLoop rest data
      | some (k, v) => parseFMLoop rest (insertKV data (trimL k) (stripQuotes (trimL v)))

/-- `parseFrontmatter` (`update-themes.ts` lines 121-148), with the resulting
JS object represented as an insertion-ordered association list with unique
keys. -/
def parseFrontmatterL (text : List Char) : List (List Char × List Char) :=
  let lines := fmLines text
  if trimL (lines.headD []) = ['-', '-', '-'] then parseFMLoop lines.tail []
  else []

/-- String-level entry point of the parser. -/
def parseFrontmatter (text : String) : List (String × String) :=
  (parseFrontmatterL text.toList).map (fun p => (String.mk p.1, String.mk p.2))

/-- One `key: value` line of the re-serialized form. -/
def fmLineOf (p : List Char × List Char) : List Char :=
  p.1 ++ ':' :: ' ' :: p.2

/-- Re-serialization of a parsed mapping: one `key: value` line per entry
between delimiter lines. -/
def serializeFML (m : List (List Char × List Char)) : List Char :=
  ['-', '-', '-', '\n'] ++ (m.map (fun p => fmLineOf p ++ ['\n'])).flatten ++
    ['-', '-', '-']

/-- String-level re-serialization. -/
def serializeFrontmatter (m : List (String × String)) : String :=
  String.mk (serializeFML (m.map (fun p => (p.1.toList, p.2.toList))))

/-! ## Data model

Source: the interfaces of `update-themes.ts` lines 11-51.  Optional JS fields
are `Option`; flags that the source leaves `undefined` are `none`.
-/

/-- `RepoStats` (`update-themes.ts` lines 21-30). -/
structure RepoStats where
  stars : Nat
  lastCommitAt : Option String
  license : Option String
  openIssues : Option Nat
  description : Option String
  error : Option Bool
  isRateLimit : Option Bool
  isNotFound : Option Bool
deriving DecidableEq, Repr

/-- `ThemeItem` (`update-themes.ts` lines 32-37, flattening the inherited
`ThemeFrontmatter` fields). -/
structure ThemeItem where
  id : String
  fileName : String
  title : String
  author : Option String
  homepage : Option String
  download : Option String
  thumbnail : Option String
  description : Option String
  category : Option String
  repoOwner : Option String
  repoName : Option String
deriving DecidableEq, Repr

/-- `ThemeGroup` (`update-themes.ts` lines 39-46). -/
structure ThemeGroup where
  id : String
  repoOwner : String
  repoName : String
  themes : List ThemeItem
  stats : Option RepoStats
  loadingStats : Bool
deriving DecidableEq, Repr

/-- `GitHubContentFile` (`update-themes.ts` lines 48-51). -/
structure GHFile where
  name : String
  download_url : String
deriving DecidableEq, Repr

/-! ## Theme construction

Source: the per-file body of `main` in `update-themes.ts` lines 203-238.
-/

/-- Field access `frontmatter.key` on the parsed front-matter object. -/
def fmField (m : List (String × String)) (k : String) : Option String :=
  (m.find? (fun p => p.1 == k)).map (fun p => p.2)

def THUMBNAIL_BASE_URL : String :=
  "https://raw.githubusercontent.com/typora/theme.typora.io/gh-pages/media/thumbnails/"

/-- Thumbnail normalization (`update-themes.ts` lines 214-218): a truthy
thumbnail that does not start with `http` is prefixed with the media base URL,
after dropping a leading `/`. -/
def rewriteThumbnail (th : Option String) : Option String :=
  match th with
  | none => none
  | some s =>
    if !s.isEmpty && !sStartsWith s.toList "http".toList then
      some (THUMBNAIL_BASE_URL ++
        String.mk (if sStartsWith s.toList "/".toList then s.toList.drop 1 else s.toList))
    else some s

/-- JS `name.replace(/\.md$/i, '')`: drop a trailing `.md` extension,
case-insensitively. -/
def stripMdExt (name : List Char) : List Char :=
  if sEndsWith (name.map Char.toLower) ".md".toList then dropRightL 3 name else name

/-- One `\d{1,2}-` piece of the date-prefix regex (greedy with
backtracking, which here is simply: two digits and a dash, else one digit and
a dash). -/
def matchD12Dash : List Char → Option (List Char)
  | a :: b :: c :: rest =>
    if a.isDigit && b.isDigit && c == '-' then some rest
    else if a.isDigit && b == '-' then some (c :: rest)
    else none
  | [a, b] => if a.isDigit && b == '-' then some [] else none
  | _ => none

/-- The JS date-prefix `replace` of `update-themes.ts` line 223: strip an
anchored leading `\d{4}` dash `\d{1,2}` dash `\d{1,2}` dash pattern when the
whole pattern matches, else leave the name unchanged. -/
def stripDateLead (name : List Char) : List Char :=
  match name with
  | c1 :: c2 :: c3 :: c4 :: '-' :: rest =>
    if c1.isDigit && c2.isDigit && c3.isDigit && c4.isDigit then
      match (matchD12Dash rest).bind matchD12Dash with
      | some tail => tail
      | none => name
    else name
  | _ => name

/-- The repository-identity resolution of `update-themes.ts` lines 209-212:
try the homepage, and only if it fails, the download URL. -/
def resolveRepoInfo (m : List (String × String)) : Option (String × String) :=
  match getRepoInfoFromUrl (fmField m "homepage") with
  | some info => some info
  | none => getRepoInfoFromUrl (fmField m "download")

/-- Construction of one `ThemeItem` from a listed file and its parsed
front matter (`update-themes.ts` lines 203-238): repository identity from the
homepage, falling back to the download URL; title from the front matter,
falling back to the file name with extension and date prefix stripped. -/
def buildTheme (file : GHFile) (m : List (String × String)) : ThemeItem :=
  let fmTitle := fmField m "title"
  let repoInfo := resolveRepoInfo m
  { id := file.name
    fileName := file.name
    title :=
      if jsTruthy fmTitle then jsStr fmTitle
      else String.mk (stripDateLead (stripMdExt file.name.toList))
    author := fmField m "author"
    homepage := fmField m "homepage"
    download := fmField m "download"
    thumbnail := rewriteThumbnail (fmField m "thumbnail")
    description := fmField m "description"
    category := fmField m "category"
    repoOwner := repoInfo.map (fun p => p.1)
    repoName := repoInfo.map (fun p => p.2) }

/-! ## Grouping engine

Source: `update-themes.ts` lines 243-274.
-/

/-- The three-tier selection of `(groupId, owner, name)` for one theme
(`update-themes.ts` lines 245-262), with JS truthiness on the optional
fields. -/
def groupPlan (t : ThemeItem) : String × String × String :=
  if jsTruthy t.repoOwner && jsTruthy t.repoName then
    (jsStr t.repoOwner ++ "/" ++ jsStr t.repoName, jsStr t.repoOwner, jsStr t.repoName)
  else if jsTruthy t.author then
    ("author/" ++ jsStr t.author, jsStr t.author,
      if jsTruthy t.repoName then jsStr t.repoName else "themes")
  else
    ("standalone/" ++ t.id, "unknown", t.title)

/-- The group created for a theme whose key is not yet present
(`update-themes.ts` lines 264-273, including the first `push`): note the
`name || 'unknown'` fallback on the group's `repoName`. -/
def mkGroup (t : ThemeItem) : ThemeGroup :=
  { id := (groupPlan t).1
    repoOwner := (groupPlan t).2.1
    repoName := if (groupPlan t).2.2 = "" then "unknown" else (groupPlan t).2.2
    themes := [t]
    stats := none
    loadingStats := false }

/-- Insert one theme into the ordered group map: push onto the existing group
with the same key, or append a fresh group (JS object property order is
insertion order). -/
def insertTheme (t : ThemeItem) : List ThemeGroup → List ThemeGroup
  | [] => [mkGroup t]
  | g :: gs =>
    if g.id = (groupPlan t).1 then
      { g with themes := g.themes ++ [t] } :: gs
    else g :: insertTheme t gs

/-- The whole grouping pass (`themes.forEach` plus `Object.values`,
`update-themes.ts` lines 243-276). -/
def buildGroups (ts : List ThemeItem) : List ThemeGroup :=
  ts.foldl (fun gs t => insertTheme t gs) []

/-! ## Stats enrichment engine

Source: `update-themes.ts` lines 279-351.  A batch's GraphQL response is
modelled as the `result.data || {}` object: a partial map from alias strings
to per-repository data (a missing or `null` alias maps to `none`); a
transport failure of `fetchGraphQL` is the `none` outcome of the whole call.
-/

/-- `licenseInfo { spdxId name }` of the GraphQL response. -/
structure LicenseInfo where
  spdxId : Option String
  name : Option String
deriving DecidableEq, Repr

/-- One aliased repository result of the bulk GraphQL query
(`update-themes.ts` lines 300-307). -/
structure RepoData where
  stargazersTotalCount : Nat
  pushedAt : Option String
  updatedAt : Option String
  description : Option String
  licenseInfo : Option LicenseInfo
  openIssuesTotalCount : Nat
deriving DecidableEq, Repr

/-- The `result.data || {}` object of one successful bulk query. -/
abbrev BatchData : Type := String → Option RepoData

/-- The `Stats` written for a present alias (`update-themes.ts`
lines 327-334). -/
def populateStats (rd : RepoData) : RepoStats :=
  { stars := rd.stargazersTotalCount
    lastCommitAt := jsOrS rd.pushedAt rd.updatedAt
    description := rd.description
    license := jsOrS (rd.licenseInfo.bind (fun li => li.spdxId))
      (rd.licenseInfo.bind (fun li => li.name))
    openIssues := some rd.openIssuesTotalCount
    error := some false
    isRateLimit := none
    isNotFound := none }

/-- The `Stats` written for an absent alias (`update-themes.ts`
lines 337-342). -/
def notFoundStats : RepoStats :=
  { stars := 0
    lastCommitAt := some ""
    license := none
    openIssues := none
    description := none
    error := some false
    isRateLimit := none
    isNotFound := some true }

/-- The `batch.forEach` of `update-themes.ts` lines 322-344, from position
`idx` on: look up alias `repo<idx>` and write the corresponding stats. -/
def applyGo (data : BatchData) : Nat → List ThemeGroup → List ThemeGroup
  | _, [] => []
  | idx, g :: gs =>
    (match data ("repo" ++ toString idx) with
     | some rd => { g with stats := some (populateStats rd) }
     | none => { g with stats := some notFoundStats }) :: applyGo data (idx + 1) gs

/-- Application of one successful batch response to its batch. -/
def applyBatchResult (batch : List ThemeGroup) (data : BatchData) : List ThemeGroup :=
  applyGo data 0 batch

/-- One iteration of the batch loop (`update-themes.ts` lines 312-348): a
transport failure (`none`) is caught and leaves the batch untouched. -/
def batchStep (fetch : Nat → Option BatchData) (i : Nat) (b : List ThemeGroup) :
    List ThemeGroup :=
  match fetch i with
  | none => b
  | some data => applyBatchResult b data

/-- The batch loop over a list of batches, numbering them from `i`. -/
def processBatches (fetch : Nat → Option BatchData) :
    Nat → List (List ThemeGroup) → List (List ThemeGroup)
  | _, [] => []
  | i, b :: bs => batchStep fetch i b :: processBatches fetch (i + 1) bs

/-- Structural worker for `chunkList`: the fuel bounds the recursion depth
(it is instantiated with the list length, which each step strictly
decreases, so the fuel never runs out). -/
def chunkGo (n : Nat) : Nat → List α → List (List α)
  | _, [] => []
  | 0, x :: xs => [x :: xs]
  | fuel + 1, x :: xs => (x :: xs.take (n - 1)) :: chunkGo n fuel (xs.drop (n - 1))

/-- The `slice(i, i + BATCH_SIZE)` partition of the loop header
(`update-themes.ts` lines 293-294): consecutive chunks of `n` elements. -/
def chunkList (n : Nat) (l : List α) : List (List α) := chunkGo n l.length l

/-- `BATCH_SIZE` (`update-themes.ts` line 291). -/
def BATCH_SIZE : Nat := 50

/-- The whole GraphQL batch loop over a list of groups. -/
def runBatches (fetch : Nat → Option BatchData) (gs : List ThemeGroup) :
    List ThemeGroup :=
  (processBatches fetch 0 (chunkList BATCH_SIZE gs)).flatten

/-- The `validGroups` filter (`update-themes.ts` lines 279-283). -/
def isValidGroup (g : ThemeGroup) : Bool :=
  !sStartsWith g.id.toList "author/".toList &&
    !sStartsWith g.id.toList "standalone/".toList &&
    g.repoOwner != "unknown"

def validGroups (gs : List ThemeGroup) : List ThemeGroup :=
  gs.filter isValidGroup

/-- The enrichment pass over the full group list: the JS code mutates the
filtered group objects in place, which alias into `groupList`; functionally,
each group of `groupList` is replaced by its enriched version when its key
was enriched (group keys are unique by construction). -/
def enrich (gs : List ThemeGroup) (fetch : Nat → Option BatchData) :
    List ThemeGroup :=
  let enriched := runBatches fetch (validGroups gs)
  gs.map (fun g => (enriched.find? (fun e => e.id == g.id)).getD g)

/-! ## Single-item stats lookup (`fetchRepoStats`)

Source: `services/githubService.ts` lines 131-167.  The outcome of the
`fetch` call is explicit: either an HTTP response (status code and parsed
JSON body) or a network-level exception.
-/

/-- `license { spdx_id name }` of the REST response body. -/
structure LicenseJson where
  spdx_id : Option String
  name : Option String
deriving DecidableEq, Repr

/-- The REST repository metadata consulted by `fetchRepoStats`. -/
structure RepoJson where
  stargazers_count : Nat
  pushed_at : Option String
  updated_at : Option String
  license : Option LicenseJson
  open_issues_count : Nat
  description : Option String
deriving DecidableEq, Repr

/-- The outcome of the HTTP `fetch` inside `fetchRepoStats`: a response with
a status code, or a network-level exception (which in JS lands in the
`catch`). -/
inductive HttpOutcome where
  | response (status : Nat) (body : RepoJson)
  | netError
deriving DecidableEq, Repr

/-- `fetchRepoStats` (`githubService.ts` lines 131-167): 403/429 before 404
before the generic `!response.ok` check (`ok` is status 200-299), with every
exception normalized by the surrounding `try`/`catch`. -/
def fetchRepoStats : HttpOutcome → RepoStats
  | .netError =>
    { stars := 0, lastCommitAt := some "", license := none, openIssues := none,
      description := none, error := some true, isRateLimit := none, isNotFound := none }
  | .response status body =>
    if status = 403 ∨ status = 429 then
      { stars := 0, lastCommitAt := some "", license := none, openIssues := none,
        description := none, error := some true, isRateLimit := some true,
        isNotFound := none }
    else if status = 404 then
      { stars := 0, lastCommitAt := some "", license := none, openIssues := none,
        description := none, error := some false, isRateLimit := none,
        isNotFound := some true }
    else if ¬(200 ≤ status ∧ status ≤ 299) then
      { stars := 0, lastCommitAt := some "", license := none, openIssues := none,
        description := none, error := some true, isRateLimit := none,
        isNotFound := none }
    else
      { stars := body.stargazers_count
        lastCommitAt := jsOrS body.pushed_at body.updated_at
        license := jsOrS (body.license.bind (fun li => li.spdx_id))
          (body.license.bind (fun li => li.name))
        openIssues := some body.open_issues_count
        description := body.description
        error := some false
        isRateLimit := none
        isNotFound := none }

/-! ## Sample data used by witnesses and counterexamples -/

def sampleRepoTheme : ThemeItem :=
  buildTheme { name := "a.md", download_url := "" }
    [("homepage", "https://github.com/acme/theme-x")]

def sampleAuthorTheme : ThemeItem :=
  buildTheme { name := "c.md", download_url := "" } [("author", "jane")]

def sampleUnknownTheme : ThemeItem :=
  buildTheme { name := "u.md", download_url := "" }
    [("homepage", "https://github.com/unknown/repo")]

def sampleRepoGroup : ThemeGroup := mkGroup sampleRepoTheme

def sampleRepoData : RepoData :=
  { stargazersTotalCount := 7, pushedAt := some "2024-01-01T00:00:00Z",
    updatedAt := some "2023-01-01T00:00:00Z", description := some "a theme",
    licenseInfo := some { spdxId := some "MIT", name := some "MIT License" },
    openIssuesTotalCount := 2 }

def goodFetch : Nat → Option BatchData := fun _ => some (fun _ => some sampleRepoData)

def sampleBody : RepoJson :=
  { stargazers_count := 0, pushed_at := none, updated_at := none,
    license := none, open_issues_count := 0, description := none }

/-- The descriptor built from the file name `".md"` with empty front matter:
no title is declared and the filename-derived fallback is empty. -/
def standaloneEmptyTitleTheme : ThemeItem :=
  buildTheme { name := ".md", download_url := "" } []

/-- All members of all groups, in group order. -/
def groupMembers (gs : List ThemeGroup) : List ThemeItem :=
  (gs.map (fun g => g.themes)).flatten

/-- The head, if any, is not whitespace. -/
def noWSHead (v : List Char) : Prop := ∀ c, v.head? = some c → isWSc c = false

/-- The last element, if any, is not whitespace. -/
def noWSLast (v : List Char) : Prop := ∀ c, v.getLast? = some c → isWSc c = false

/-- Decidable check that both ends of a value are free of whitespace. -/
def wfEndsB (v : List Char) : Bool :=
  (match v.head? with | some c => !isWSc c | none => true) &&
    (match v.getLast? with | some c => !isWSc c | none => true)

/-- A well-formed parsed key: its own trim, colon-free, newline-free. -/
def wfKeyP (k : List Char) : Prop := trimL k = k ∧ ':' ∉ k ∧ '\n' ∉ k

/-- A parsed pair that round-trips: well-formed key, value with
non-whitespace ends, not quote-wrapped, newline-free. -/
def wfPairP (p : List Char × List Char) : Prop :=
  wfKeyP p.1 ∧ noWSHead p.2 ∧ noWSLast p.2 ∧ quoteWrapped p.2 = false ∧ '\n' ∉ p.2

/-- The text of the C8 counterexample: a value wrapped in two layers of
double quotes. -/
def doubleQuotedText : List Char := "---\na: \"\"x\"\"\n---".toList

/-! ## General lemmas about the embedded primitives -/

/-- A resolved identity never has an empty owner or repository name: both come
from the non-empty path segments. -/
theorem getRepoInfoFromUrl_ne_empty (url : Option String) (o r : String)
    (h : getRepoInfoFromUrl url = some (o, r)) : o ≠ "" ∧ r ≠ "" := by
  unfold getRepoInfoFromUrl at h
  rcases url with _ | u
  · simp at h
  · simp only at h
    split at h
    · simp at h
    · unfold repoFromCleaned at h
      split at h
      · simp at h
      · rename_i host path heq
        split at h
        · split at h
          · rename_i s0 s1 rest hseg
            have hs0 : s0 ∈ (splitOnChar '/' path).filter (fun s => !s.isEmpty) := by
              rw [hseg]; exact List.mem_cons_self _ _
            have hs1 : s1 ∈ (splitOnChar '/' path).filter (fun s => !s.isEmpty) := by
              rw [hseg]; exact List.mem_cons_of_mem _ (List.mem_cons_self _ _)
            have h0 := List.of_mem_filter hs0
            have h1 := List.of_mem_filter hs1
            simp only [Option.some.injEq, Prod.mk.injEq] at h
            constructor
            · rw [← h.1]
              intro hc
              have : s0 = [] := by
                have := congrArg String.data hc
                simpa using this
              simp [this] at h0
            · rw [← h.2]
              intro hc
              have : s1 = [] := by
                have := congrArg String.data hc
                simpa using this
              simp [this] at h1
          · simp at h
        · simp at h

/-- `chunkGo` ignores the exact fuel as long as it suffices. -/
theorem chunkGo_fuel (n : Nat) :
    ∀ (f₁ : Nat) (f₂ : Nat) (l : List α), l.length ≤ f₁ → l.length ≤ f₂ →
      chunkGo n f₁ l = chunkGo n f₂ l := by
  intro f₁
  induction f₁ with
  | zero =>
    intro f₂ l h₁ h₂
    cases l with
    | nil => cases f₂ <;> rfl
    | cons x xs => simp at h₁
  | succ f ih =>
    intro f₂ l h₁ h₂
    cases l with
    | nil => cases f₂ <;> rfl
    | cons x xs =>
      cases f₂ with
      | zero => simp at h₂
      | succ g =>
        simp only [chunkGo, List.cons.injEq, true_and]
        apply ih
        · simp only [List.length_drop]
          simp only [List.length_cons] at h₁
          omega
        · simp only [List.length_drop]
          simp only [List.length_cons] at h₂
          omega

/-- The defining equation of `chunkList` on a non-empty list. -/
theorem chunkList_cons (n : Nat) (x : α) (xs : List α) :
    chunkList n (x :: xs) = (x :: xs.take (n - 1)) :: chunkList n (xs.drop (n - 1)) := by
  show chunkGo n (xs.length + 1) (x :: xs) = _
  simp only [chunkGo, List.cons.injEq, true_and]
  apply chunkGo_fuel
  · simp only [List.length_drop]; omega
  · simp [List.length_drop]

@[simp] theorem chunkList_nil (n : Nat) : chunkList n ([] : List α) = [] := rfl

/-! ## Claim C1 — the repository reference resolver on the four spec inputs -/

/-- C1 counterexample: on `"https://github.com/owner/repo.git/"` the resolver
does not return `{owner, repo}` as claimed — the `.git` suffix is stripped
before the trailing slash, so it is still present and ends up inside the
repository name. -/
theorem resolver_gitSlash_counterexample :
    getRepoInfoFromUrl (some "https://github.com/owner/repo.git/") =
      some ("owner", "repo.git") ∧
    getRepoInfoFromUrl (some "https://github.com/owner/repo.git/") ≠
      some ("owner", "repo") := by
  constructor
  · decide
  · decide

/-- C1 (amended): `resolveRepository` on the four inputs of the claim, with
the `".git/"` case corrected to return `{owner: "owner", repo: "repo.git"}`
(the version-control suffix is only stripped when it is the very last part of
the string, i.e. before the trailing separator is removed). -/
theorem resolver_examples_amended :
    getRepoInfoFromUrl (some "https://github.com/owner/repo") = some ("owner", "repo") ∧
    getRepoInfoFromUrl (some "https://github.com/owner/repo.git/") =
      some ("owner", "repo.git") ∧
    getRepoInfoFromUrl (some "https://gitlab.com/owner/repo") = none ∧
    getRepoInfoFromUrl none = none := by
  refine ⟨by decide, by decide, by decide, rfl⟩

/-! ## Claim C6 — `fetchRepoStats` always returns a classified `Stats` -/

/-- C6: the single-item stats lookup is a total function of the HTTP outcome
(never throws), and classifies it exactly as claimed: 403/429 to
`isRateLimit=true, error=true`; 404 to `isNotFound=true, error=false`; any
other non-2xx status to a bare `error=true` with neither flag; and a
network-level exception to the same bare `error=true` shape. -/
theorem fetchRepoStats_classification (status : Nat) (body : RepoJson) :
    ((status = 403 ∨ status = 429) →
      fetchRepoStats (.response status body) =
        { stars := 0, lastCommitAt := some "", license := none, openIssues := none,
          description := none, error := some true, isRateLimit := some true,
          isNotFound := none }) ∧
    (status = 404 →
      fetchRepoStats (.response status body) =
        { stars := 0, lastCommitAt := some "", license := none, openIssues := none,
          description := none, error := some false, isRateLimit := none,
          isNotFound := some true }) ∧
    (status ≠ 403 → status ≠ 429 → status ≠ 404 → ¬(200 ≤ status ∧ status ≤ 299) →
      fetchRepoStats (.response status body) =
        { stars := 0, lastCommitAt := some "", license := none, openIssues := none,
          description := none, error := some true, isRateLimit := none,
          isNotFound := none }) ∧
    ((200 ≤ status ∧ status ≤ 299) →
      (fetchRepoStats (.response status body)).error = some false) ∧
    fetchRepoStats .netError =
      { stars := 0, lastCommitAt := some "", license := none, openIssues := none,
        description := none, error := some true, isRateLimit := none,
        isNotFound := none } := by
  refine ⟨?_, ?_, ?_, ?_, rfl⟩
  · intro h
    simp only [fetchRepoStats]
    rw [if_pos h]
  · intro h
    subst h
    rfl
  · intro h1 h2 h3 h4
    simp only [fetchRepoStats]
    rw [if_neg (by tauto), if_neg h3, if_pos h4]
  · intro h
    simp only [fetchRepoStats]
    rw [if_neg (by omega), if_neg (by omega), if_neg (not_not_intro h)]

/-- Witness for C6 at concrete statuses 403, 404, 500 and at a network
exception. -/
theorem fetchRepoStats_classification_witness :
    fetchRepoStats (.response 403 sampleBody) =
      { stars := 0, lastCommitAt := some "", license := none, openIssues := none,
        description := none, error := some true, isRateLimit := some true,
        isNotFound := none } ∧
    fetchRepoStats (.response 404 sampleBody) =
      { stars := 0, lastCommitAt := some "", license := none, openIssues := none,
        description := none, error := some false, isRateLimit := none,
        isNotFound := some true } ∧
    fetchRepoStats (.response 500 sampleBody) =
      { stars := 0, lastCommitAt := some "", license := none, openIssues := none,
        description := none, error := some true, isRateLimit := none,
        isNotFound := none } :=
  ⟨(fetchRepoStats_classification 403 sampleBody).1 (Or.inl rfl),
   (fetchRepoStats_classification 404 sampleBody).2.1 rfl,
   (fetchRepoStats_classification 500 sampleBody).2.2.1 (by decide) (by decide)
     (by decide) (by decide)⟩

/-! ## Claim C4 — application of one bulk batch response -/

/-- Position `j` of the applied batch, in terms of position `j` of the input
batch and the alias `repo<i+j>`. -/
theorem applyGo_getElem? (data : BatchData) :
    ∀ (i j : Nat) (b : List ThemeGroup),
      (applyGo data i b)[j]? = b[j]?.map (fun g =>
        match data ("repo" ++ toString (i + j)) with
        | some rd => { g with stats := some (populateStats rd) }
        | none => { g with stats := some notFoundStats }) := by
  intro i j b
  induction b generalizing i j with
  | nil => simp [applyGo]
  | cons g gs ih =>
    cases j with
    | zero => simp [applyGo]
    | succ j =>
      simp only [applyGo, List.getElem?_cons_succ]
      rw [ih (i + 1) j]
      have h : i + 1 + j = i + (j + 1) := by omega
      rw [h]

/-- C4: when a bulk batch response is applied, a group whose per-item alias is
absent from the response data receives exactly
`{stars := 0, lastCommitAt := "", isNotFound := true, error := false}` (all
other fields absent), and a group whose alias is present receives the
normally populated stats, which carry `error = false`. -/
theorem batch_alias_application (batch : List ThemeGroup) (data : BatchData)
    (idx : Nat) (g : ThemeGroup) (hg : batch[idx]? = some g) :
    (data ("repo" ++ toString idx) = none →
      (applyBatchResult batch data)[idx]? =
        some { g with stats := some notFoundStats }) ∧
    (∀ rd, data ("repo" ++ toString idx) = some rd →
      (applyBatchResult batch data)[idx]? =
        some { g with stats := some (populateStats rd) } ∧
      (populateStats rd).error = some false) := by
  unfold applyBatchResult
  rw [applyGo_getElem? data 0 idx batch, hg]
  simp only [Nat.zero_add, Option.map_some']
  constructor
  · intro h
    rw [h]
  · intro rd h
    rw [h]
    exact ⟨rfl, rfl⟩

/-- Witness for C4: a one-group batch against an empty response object gets
the not-found stats, and against a full response gets populated stats. -/
theorem batch_alias_application_witness :
    (applyBatchResult [sampleRepoGroup] (fun _ => none))[0]? =
      some { sampleRepoGroup with stats := some notFoundStats } ∧
    (applyBatchResult [sampleRepoGroup] (fun _ => some sampleRepoData))[0]? =
      some { sampleRepoGroup with stats := some (populateStats sampleRepoData) } :=
  ⟨(batch_alias_application [sampleRepoGroup] (fun _ => none) 0 sampleRepoGroup rfl).1
     rfl,
   ((batch_alias_application [sampleRepoGroup] (fun _ => some sampleRepoData) 0
      sampleRepoGroup rfl).2 sampleRepoData rfl).1⟩

/-! ## Claim C5 — a batch-level transport failure is isolated to its batch -/

/-- Batch `j` of the processed batch list, in terms of batch `j` of the input
and its own fetch outcome only. -/
theorem processBatches_getElem? (fetch : Nat → Option BatchData) :
    ∀ (i j : Nat) (bs : List (List ThemeGroup)),
      (processBatches fetch i bs)[j]? = bs[j]?.map (batchStep fetch (i + j)) := by
  intro i j bs
  induction bs generalizing i j with
  | nil => simp [processBatches]
  | cons b bs ih =>
    cases j with
    | zero => simp [processBatches]
    | succ j =>
      simp only [processBatches, List.getElem?_cons_succ]
      rw [ih (i + 1) j]
      have h : i + 1 + j = i + (j + 1) := by omega
      rw [h]

/-- C5: if the bulk-query transport call of batch `k` throws, batch `k` comes
out of the loop exactly as it went in — every group in it keeps its `stats`
field as it was (unset groups stay unset; no error stats is written) — while
every other batch `j` is processed exactly according to its own fetch
outcome, so the failure affects no other batch and the loop proceeds. -/
theorem batch_transport_failure (gs : List ThemeGroup)
    (fetch : Nat → Option BatchData) (k : Nat) (b : List ThemeGroup)
    (hthrow : fetch k = none) (hb : (chunkList BATCH_SIZE gs)[k]? = some b) :
    (processBatches fetch 0 (chunkList BATCH_SIZE gs))[k]? = some b ∧
    (∀ j, j ≠ k →
      (processBatches fetch 0 (chunkList BATCH_SIZE gs))[j]? =
        ((chunkList BATCH_SIZE gs)[j]?).map (batchStep fetch j)) := by
  constructor
  · rw [processBatches_getElem? fetch 0 k _, hb]
    simp [batchStep, hthrow]
  · intro j _
    rw [processBatches_getElem? fetch 0 j _]
    simp

/-- Witness for C5: a singleton group list whose only batch's transport call
throws comes out unchanged, with its group's stats still unset. -/
theorem batch_transport_failure_witness :
    (processBatches (fun _ => none) 0 (chunkList BATCH_SIZE [sampleRepoGroup]))[0]? =
      some [sampleRepoGroup] ∧ sampleRepoGroup.stats = none :=
  ⟨(batch_transport_failure [sampleRepoGroup] (fun _ => none) 0 [sampleRepoGroup]
      rfl (by decide)).1, by decide⟩

/-! ## Claim C2 — the three-tier group-key assignment -/

/-- A truthy optional string holds a non-empty string. -/
theorem jsStr_ne_of_truthy {o : Option String} (h : jsTruthy o = true) :
    jsStr o ≠ "" := by
  simpa [jsTruthy, jsStr, bne_iff_ne] using h

/-- C2 counterexample: for a tier-3 descriptor with an empty title the
created group's name is the literal `"unknown"`, not the descriptor's title
as the claim states (the group constructor applies a `name || 'unknown'`
fallback). -/
theorem grouping_tier3_counterexample :
    (buildGroups [standaloneEmptyTitleTheme]).map (fun g => (g.id, g.repoName)) =
      [("standalone/.md", "unknown")] ∧
    standaloneEmptyTitleTheme.title = "" ∧
    ("unknown" : String) ≠ "" := by
  refine ⟨by decide, by decide, by decide⟩

/-- The three-tier key/owner/name selection and the created group's fields,
case by case (JS truthiness on the optional fields; the group constructor
applies a `name || 'unknown'` fallback). -/
theorem groupPlan_three_tier (t : ThemeItem) :
    ((jsTruthy t.repoOwner && jsTruthy t.repoName) = true →
      groupPlan t = (jsStr t.repoOwner ++ "/" ++ jsStr t.repoName,
        jsStr t.repoOwner, jsStr t.repoName) ∧
      mkGroup t = { id := jsStr t.repoOwner ++ "/" ++ jsStr t.repoName,
                    repoOwner := jsStr t.repoOwner, repoName := jsStr t.repoName,
                    themes := [t], stats := none, loadingStats := false }) ∧
    ((jsTruthy t.repoOwner && jsTruthy t.repoName) = false →
      jsTruthy t.author = true →
      groupPlan t = ("author/" ++ jsStr t.author, jsStr t.author,
        if jsTruthy t.repoName then jsStr t.repoName else "themes") ∧
      (mkGroup t).repoOwner = jsStr t.author ∧
      (mkGroup t).repoName =
        (if jsTruthy t.repoName then jsStr t.repoName else "themes")) ∧
    ((jsTruthy t.repoOwner && jsTruthy t.repoName) = false →
      jsTruthy t.author = false →
      groupPlan t = ("standalone/" ++ t.id, "unknown", t.title) ∧
      (mkGroup t).repoOwner = "unknown" ∧
      (mkGroup t).repoName = (if t.title = "" then "unknown" else t.title)) := by
  refine ⟨?_, ?_, ?_⟩
  · intro h
    have hpair := h
    rw [Bool.and_eq_true] at hpair
    have hname : jsStr t.repoName ≠ "" := jsStr_ne_of_truthy hpair.2
    have hplan : groupPlan t = (jsStr t.repoOwner ++ "/" ++ jsStr t.repoName,
        jsStr t.repoOwner, jsStr t.repoName) := by
      simp [groupPlan, h]
    exact ⟨hplan, by simp [mkGroup, hplan, hname]⟩
  · intro h1 h2
    have hplan : groupPlan t = ("author/" ++ jsStr t.author, jsStr t.author,
        if jsTruthy t.repoName then jsStr t.repoName else "themes") := by
      simp [groupPlan, h1, h2]
    refine ⟨hplan, by simp [mkGroup, hplan], ?_⟩
    by_cases hn : jsTruthy t.repoName
    · have := jsStr_ne_of_truthy hn
      simp [mkGroup, hplan, hn, this]
    · simp [mkGroup, hplan, hn]
  · intro h1 h2
    have hplan : groupPlan t = ("standalone/" ++ t.id, "unknown", t.title) := by
      simp [groupPlan, h1, h2]
    exact ⟨hplan, by simp [mkGroup, hplan], by simp [mkGroup, hplan]⟩

/-- C2 (amended): the grouping engine assigns, per descriptor, the group key,
owner and name by the strict three-tier priority of the claim — with JS
truthiness reading "carries"/"declares" as "non-empty", and with the tier-3
group name amended to the descriptor's title *if the title is non-empty, else
the literal `"unknown"`* (the group constructor's `name || 'unknown'`
fallback). -/
theorem grouping_three_tier_amended (t : ThemeItem) :
    ((jsTruthy t.repoOwner && jsTruthy t.repoName) = true →
      groupPlan t = (jsStr t.repoOwner ++ "/" ++ jsStr t.repoName,
        jsStr t.repoOwner, jsStr t.repoName) ∧
      mkGroup t = { id := jsStr t.repoOwner ++ "/" ++ jsStr t.repoName,
                    repoOwner := jsStr t.repoOwner, repoName := jsStr t.repoName,
                    themes := [t], stats := none, loadingStats := false }) ∧
    ((jsTruthy t.repoOwner && jsTruthy t.repoName) = false →
      jsTruthy t.author = true →
      groupPlan t = ("author/" ++ jsStr t.author, jsStr t.author,
        if jsTruthy t.repoName then jsStr t.repoName else "themes") ∧
      (mkGroup t).repoOwner = jsStr t.author ∧
      (mkGroup t).repoName =
        (if jsTruthy t.repoName then jsStr t.repoName else "themes")) ∧
    ((jsTruthy t.repoOwner && jsTruthy t.repoName) = false →
      jsTruthy t.author = false →
      groupPlan t = ("standalone/" ++ t.id, "unknown", t.title) ∧
      (mkGroup t).repoOwner = "unknown" ∧
      (mkGroup t).repoName = (if t.title = "" then "unknown" else t.title)) :=
  groupPlan_three_tier t

/-- Witness for C2 (amended), on a tier-2 descriptor declaring only an
author. -/
theorem grouping_three_tier_amended_witness :
    groupPlan sampleAuthorTheme = ("author/jane", "jane", "themes") := by
  have h := ((grouping_three_tier_amended sampleAuthorTheme).2.1
    (by decide) (by decide)).1
  rw [h]
  decide

/-! ## Claim C10 — repoOwner/repoName are both present or both absent -/

/-- The resolved identity (wherever it came from) has non-empty
components. -/
theorem resolveRepoInfo_ne_empty (m : List (String × String)) (p : String × String)
    (h : resolveRepoInfo m = some p) : p.1 ≠ "" ∧ p.2 ≠ "" := by
  unfold resolveRepoInfo at h
  rcases hh : getRepoInfoFromUrl (fmField m "homepage") with _ | q
  · rw [hh] at h
    exact getRepoInfoFromUrl_ne_empty _ p.1 p.2 (by rwa [Prod.mk.eta])
  · rw [hh] at h
    simp only [Option.some.injEq] at h
    rw [← h]
    exact getRepoInfoFromUrl_ne_empty _ q.1 q.2 (by rw [Prod.mk.eta]; exact hh)

/-- C10: for every pipeline-built descriptor, `repoOwner` and `repoName` are
both present or both absent (the resolver yields a whole identity or none),
their components are never empty; consequently a descriptor that reaches
tier 2 of the grouping fallback has `repoName` absent and its group's name is
always the literal `"themes"`. -/
theorem repo_identity_paired (file : GHFile) (m : List (String × String)) :
    ((buildTheme file m).repoOwner.isSome ↔ (buildTheme file m).repoName.isSome) ∧
    (∀ o, (buildTheme file m).repoOwner = some o → o ≠ "") ∧
    (∀ r, (buildTheme file m).repoName = some r → r ≠ "") ∧
    ((jsTruthy (buildTheme file m).repoOwner &&
        jsTruthy (buildTheme file m).repoName) = false →
      jsTruthy (buildTheme file m).author = true →
      (buildTheme file m).repoName = none ∧
      groupPlan (buildTheme file m) =
        ("author/" ++ jsStr (buildTheme file m).author,
          jsStr (buildTheme file m).author, "themes") ∧
      (mkGroup (buildTheme file m)).repoName = "themes") := by
  have ho : (buildTheme file m).repoOwner =
      (resolveRepoInfo m).map (fun p => p.1) := rfl
  have hn : (buildTheme file m).repoName =
      (resolveRepoInfo m).map (fun p => p.2) := rfl
  rcases hri : resolveRepoInfo m with _ | p
  · rw [ho, hn, hri]
    refine ⟨by simp, by simp, by simp, ?_⟩
    intro _ h2
    refine ⟨by simp, ?_, ?_⟩
    · have hplan := ((groupPlan_three_tier (buildTheme file m)).2.1
        (by rw [ho, hri]; simp [jsTruthy]) h2).1
      rw [hplan, hn, hri]
      simp [jsTruthy]
    · have hmk := ((groupPlan_three_tier (buildTheme file m)).2.1
        (by rw [ho, hri]; simp [jsTruthy]) h2).2.2
      rw [hmk, hn, hri]
      simp [jsTruthy]
  · have hp := resolveRepoInfo_ne_empty m p hri
    rw [ho, hn, hri]
    refine ⟨by simp, ?_, ?_, ?_⟩
    · intro o hoo
      simp only [Option.map_some', Option.some.injEq] at hoo
      rw [← hoo]
      exact hp.1
    · intro r hrr
      simp only [Option.map_some', Option.some.injEq] at hrr
      rw [← hrr]
      exact hp.2
    · intro h1 _
      exfalso
      have htrue : (jsTruthy ((some p).map (fun p => p.1)) &&
          jsTruthy ((some p).map (fun p => p.2))) = true := by
        simp [jsTruthy, bne_iff_ne, hp.1, hp.2]
      rw [htrue] at h1
      simp at h1

/-- Witness for C10: a descriptor with an author and no resolvable link. -/
theorem repo_identity_paired_witness :
    (buildTheme { name := "c.md", download_url := "" } [("author", "jane")]).repoName
      = none :=
  ((repo_identity_paired { name := "c.md", download_url := "" }
    [("author", "jane")]).2.2.2 (by decide) (by decide)).1

/-! ## Claim C3 — grouping is a partition of the descriptors -/

/-- Inserting one theme adds exactly that theme to the member multiset. -/
theorem groupMembers_insertTheme (t : ThemeItem) (gs : List ThemeGroup) :
    (groupMembers (insertTheme t gs)).Perm (t :: groupMembers gs) := by
  induction gs with
  | nil => simp [groupMembers, insertTheme, mkGroup]
  | cons g gs ih =>
    by_cases h : g.id = (groupPlan t).1
    · simp only [insertTheme, if_pos h, groupMembers, List.map_cons, List.flatten_cons]
      rw [List.append_assoc]
      exact List.perm_middle
    · simp only [insertTheme, if_neg h, groupMembers, List.map_cons, List.flatten_cons]
      exact List.Perm.trans (List.Perm.append_left g.themes ih) List.perm_middle

/-- The grouping fold, over any accumulator, appends exactly the processed
themes to the member multiset. -/
theorem groupMembers_foldl (ts : List ThemeItem) :
    ∀ acc : List ThemeGroup,
      (groupMembers (ts.foldl (fun gs t => insertTheme t gs) acc)).Perm
        (groupMembers acc ++ ts) := by
  induction ts with
  | nil => intro acc; simp
  | cons t ts ih =>
    intro acc
    simp only [List.foldl_cons]
    refine List.Perm.trans (ih (insertTheme t acc)) ?_
    refine List.Perm.trans ((groupMembers_insertTheme t acc).append_right ts) ?_
    exact List.perm_middle.symm

/-- Insertion preserves non-emptiness of every member list. -/
theorem insertTheme_themes_ne_nil (t : ThemeItem) (gs : List ThemeGroup)
    (h : ∀ g ∈ gs, g.themes ≠ []) : ∀ g ∈ insertTheme t gs, g.themes ≠ [] := by
  induction gs with
  | nil =>
    intro g hg
    simp only [insertTheme, List.mem_singleton] at hg
    subst hg
    simp [mkGroup]
  | cons g0 gs ih =>
    intro g hg
    by_cases hid : g0.id = (groupPlan t).1
    · simp only [insertTheme, if_pos hid, List.mem_cons] at hg
      rcases hg with hg | hg
      · subst hg; simp
      · exact h g (List.mem_cons_of_mem _ hg)
    · simp only [insertTheme, if_neg hid, List.mem_cons] at hg
      rcases hg with hg | hg
      · subst hg; exact h g (List.mem_cons_self _ _)
      · exact ih (fun g' hg' => h g' (List.mem_cons_of_mem _ hg')) g hg

/-- C3: after the grouping pass the members of the produced groups are a
permutation of the input descriptor list — every descriptor ends up in
exactly one group, none duplicated, none lost — and every created group has a
non-empty member list. -/
theorem grouping_partition (ts : List ThemeItem) :
    (groupMembers (buildGroups ts)).Perm ts ∧
    ∀ g ∈ buildGroups ts, g.themes ≠ [] := by
  constructor
  · have h := groupMembers_foldl ts []
    simpa [groupMembers] using h
  · unfold buildGroups
    generalize hacc : ([] : List ThemeGroup) = acc
    have hbase : ∀ g ∈ acc, g.themes ≠ [] := by rw [← hacc]; simp
    clear hacc
    induction ts generalizing acc with
    | nil => simpa using hbase
    | cons t ts ih =>
      simp only [List.foldl_cons]
      exact ih _ (insertTheme_themes_ne_nil t acc hbase)

/-! ## Claim C7 — which groups the enrichment engine reaches -/

/-- A list is a `isPrefixOf` of itself followed by anything. -/
theorem isPrefixOf_append_self (l r : List Char) : l.isPrefixOf (l ++ r) = true := by
  induction l with
  | nil => simp
  | cons a l ih => simp [List.isPrefixOf, ih]

/-- A string starts with any string it extends on the right. -/
theorem sStartsWith_append_self (p s : String) :
    sStartsWith (p ++ s).toList p.toList = true := by
  show (p.data).isPrefixOf ((p ++ s).data) = true
  rw [String.data_append]
  exact isPrefixOf_append_self _ _

/-- Every group written by `applyGo` carries some stats. -/
theorem applyGo_stats_isSome (data : BatchData) :
    ∀ (i : Nat) (b : List ThemeGroup), ∀ g ∈ applyGo data i b, g.stats.isSome := by
  intro i b
  induction b generalizing i with
  | nil => intro g hg; simp [applyGo] at hg
  | cons g0 gs ih =>
    intro g hg
    simp only [applyGo, List.mem_cons] at hg
    rcases hg with hg | hg
    · rcases hd : data ("repo" ++ toString i) with _ | rd <;> rw [hd] at hg <;>
        subst hg <;> rfl
    · exact ih (i + 1) g hg

/-- Every processed batch is the step applied to some input batch. -/
theorem mem_processBatches (fetch : Nat → Option BatchData) :
    ∀ (bs : List (List ThemeGroup)) (i : Nat) (bOut : List ThemeGroup),
      bOut ∈ processBatches fetch i bs →
      ∃ i' b, b ∈ bs ∧ bOut = batchStep fetch i' b := by
  intro bs
  induction bs with
  | nil => intro i bOut h; simp [processBatches] at h
  | cons b bs ih =>
    intro i bOut h
    simp only [processBatches, List.mem_cons] at h
    rcases h with h | h
    · exact ⟨i, b, List.mem_cons_self _ _, h⟩
    · obtain ⟨i', b', hb', hout⟩ := ih (i + 1) bOut h
      exact ⟨i', b', List.mem_cons_of_mem _ hb', hout⟩

/-- `applyGo` only changes the `stats` fields. -/
theorem applyGo_map_id (data : BatchData) :
    ∀ (i : Nat) (b : List ThemeGroup),
      (applyGo data i b).map (fun g => g.id) = b.map (fun g => g.id) := by
  intro i b
  induction b generalizing i with
  | nil => rfl
  | cons g gs ih =>
    simp only [applyGo, List.map_cons]
    rw [ih (i + 1)]
    rcases hd : data ("repo" ++ toString i) with _ | rd <;> rfl

/-- One batch step preserves the group keys. -/
theorem batchStep_map_id (fetch : Nat → Option BatchData) (i : Nat)
    (b : List ThemeGroup) :
    (batchStep fetch i b).map (fun g => g.id) = b.map (fun g => g.id) := by
  unfold batchStep
  rcases fetch i with _ | data
  · rfl
  · exact applyGo_map_id data 0 b

/-- The processed batches have the same group keys, batch by batch. -/
theorem processBatches_map_id (fetch : Nat → Option BatchData) :
    ∀ (bs : List (List ThemeGroup)) (i : Nat),
      (processBatches fetch i bs).map (List.map (fun g => g.id)) =
        bs.map (List.map (fun g => g.id)) := by
  intro bs
  induction bs with
  | nil => intro i; rfl
  | cons b bs ih =>
    intro i
    simp only [processBatches, List.map_cons]
    rw [ih (i + 1), batchStep_map_id]

/-- Flattening the chunks recovers the original list (bounded-fuel form). -/
theorem chunkList_flatten_aux (n : Nat) :
    ∀ (len : Nat) (l : List α), l.length ≤ len → (chunkList n l).flatten = l := by
  intro len
  induction len with
  | zero =>
    intro l h
    cases l with
    | nil => simp
    | cons x xs => simp at h
  | succ len ih =>
    intro l h
    cases l with
    | nil => simp
    | cons x xs =>
      rw [chunkList_cons]
      simp only [List.flatten_cons]
      have hlen : (xs.drop (n - 1)).length ≤ len := by
        simp only [List.length_drop]
        simp only [List.length_cons] at h
        omega
      rw [ih (xs.drop (n - 1)) hlen]
      simp [List.take_append_drop]

/-- Flattening the chunks recovers the original list. -/
theorem chunkList_flatten (n : Nat) (l : List α) : (chunkList n l).flatten = l :=
  chunkList_flatten_aux n l.length l le_rfl

/-- The whole batch loop preserves the group keys. -/
theorem runBatches_map_id (fetch : Nat → Option BatchData) (l : List ThemeGroup) :
    (runBatches fetch l).map (fun g => g.id) = l.map (fun g => g.id) := by
  unfold runBatches
  rw [List.map_flatten, processBatches_map_id, ← List.map_flatten, chunkList_flatten]

/-- When every batch's transport call succeeds, every group that went through
the batch loop carries some stats. -/
theorem runBatches_stats_isSome (fetch : Nat → Option BatchData)
    (hok : ∀ k, (fetch k).isSome) (l : List ThemeGroup) :
    ∀ g ∈ runBatches fetch l, g.stats.isSome := by
  intro g hg
  unfold runBatches at hg
  rw [List.mem_flatten] at hg
  obtain ⟨bOut, hbOut, hgb⟩ := hg
  obtain ⟨i', b, _, rfl⟩ := mem_processBatches fetch _ 0 bOut hbOut
  unfold batchStep at hgb
  rcases hf : fetch i' with _ | data
  · have := hok i'
    rw [hf] at this
    simp at this
  · rw [hf] at hgb
    exact applyGo_stats_isSome data 0 b g hgb

/-- C7 counterexample: the descriptor with homepage
`https://github.com/unknown/repo` resolves to a tier-1 repository identity,
yet its group is excluded by the `repoOwner !== 'unknown'` filter, so even
with every bulk query succeeding and returning data, its stats stay
unset. -/
theorem enrichment_gap_counterexample :
    sampleUnknownTheme.repoOwner = some "unknown" ∧
    sampleUnknownTheme.repoName = some "repo" ∧
    (enrich (buildGroups [sampleUnknownTheme]) goodFetch).map (fun g => g.stats) =
      [none] := by
  refine ⟨by decide, by decide, by decide⟩

/-- The group keys after inserting one theme: unchanged when the theme's key
already exists, extended by the new key otherwise. -/
theorem ids_insertTheme (t : ThemeItem) (gs : List ThemeGroup) :
    (insertTheme t gs).map (fun g => g.id) =
      (if (groupPlan t).1 ∈ gs.map (fun g => g.id) then gs.map (fun g => g.id)
       else gs.map (fun g => g.id) ++ [(groupPlan t).1]) := by
  induction gs with
  | nil => simp [insertTheme, mkGroup]
  | cons g gs ih =>
    by_cases h : g.id = (groupPlan t).1
    · rw [insertTheme, if_pos h]
      simp only [List.map_cons]
      rw [if_pos (by rw [← h]; exact List.mem_cons_self _ _), h]
    · rw [insertTheme, if_neg h]
      simp only [List.map_cons, ih]
      by_cases hk : (groupPlan t).1 ∈ gs.map (fun g => g.id)
      · rw [if_pos hk, if_pos (List.mem_cons_of_mem _ hk)]
      · rw [if_neg hk, if_neg (by
          intro hm
          rcases List.mem_cons.1 hm with hm | hm
          · exact h hm.symm
          · exact hk hm), List.cons_append]

/-- Insertion preserves uniqueness of the group keys. -/
theorem nodup_ids_insertTheme (t : ThemeItem) (gs : List ThemeGroup)
    (h : (gs.map (fun g => g.id)).Nodup) :
    ((insertTheme t gs).map (fun g => g.id)).Nodup := by
  rw [ids_insertTheme]
  by_cases hk : (groupPlan t).1 ∈ gs.map (fun g => g.id)
  · rw [if_pos hk]
    exact h
  · rw [if_neg hk, List.nodup_append]
    exact ⟨h, List.nodup_singleton _, by
      intro a ha hb
      rcases List.mem_singleton.1 hb with rfl
      exact hk ha⟩

/-- The grouping pass produces pairwise distinct group keys (the JS group map
is a plain object keyed by the group id). -/
theorem buildGroups_ids_nodup (ts : List ThemeItem) :
    ((buildGroups ts).map (fun g => g.id)).Nodup := by
  unfold buildGroups
  generalize hacc : ([] : List ThemeGroup) = acc
  have hbase : (acc.map (fun g => g.id)).Nodup := by rw [← hacc]; simp
  clear hacc
  induction ts generalizing acc with
  | nil => simpa using hbase
  | cons t ts ih =>
    simp only [List.foldl_cons]
    exact ih _ (nodup_ids_insertTheme t acc hbase)

/-- The filtered groups keep pairwise distinct keys. -/
theorem validGroups_ids_nodup (gs : List ThemeGroup)
    (h : (gs.map (fun g => g.id)).Nodup) :
    ((validGroups gs).map (fun g => g.id)).Nodup :=
  List.Nodup.sublist (List.Sublist.map _ (List.filter_sublist gs)) h

/-- C7 (amended): over the groups produced by the grouping pass, every group
of a batch whose own bulk-query transport call succeeds has a stats snapshot
attached to its (unique) key in the enriched output — other batches may fail;
a group that fails the enrichment filter is never sent to the bulk query, and
every tier-2/tier-3 group fails the filter because its key is prefixed
`author/` or `standalone/`. -/
theorem enrichment_amended (ts : List ThemeItem) (fetch : Nat → Option BatchData) :
    (∀ k b, (chunkList BATCH_SIZE (validGroups (buildGroups ts)))[k]? = some b →
      (fetch k).isSome = true →
      ∀ g0 ∈ b, ∀ g ∈ enrich (buildGroups ts) fetch, g.id = g0.id →
        g.stats.isSome = true) ∧
    (∀ g ∈ buildGroups ts, isValidGroup g = false →
      g ∉ validGroups (buildGroups ts)) ∧
    (∀ t : ThemeItem, (jsTruthy t.repoOwner && jsTruthy t.repoName) = false →
      isValidGroup (mkGroup t) = false) := by
  refine ⟨?_, ?_, ?_⟩
  · intro k b hb hok g0 hg0 g hg hid
    obtain ⟨d, hd⟩ := Option.isSome_iff_exists.1 hok
    have hstep : batchStep fetch k b = applyBatchResult b d := by
      unfold batchStep
      rw [hd]
    have hproc : (processBatches fetch 0
        (chunkList BATCH_SIZE (validGroups (buildGroups ts))))[k]? =
        some (applyBatchResult b d) := by
      rw [processBatches_getElem? fetch 0 k _, hb]
      simp only [Option.map_some', Nat.zero_add, hstep]
    have hid0 : g0.id ∈ (applyBatchResult b d).map (fun g => g.id) := by
      unfold applyBatchResult
      rw [applyGo_map_id]
      exact List.mem_map_of_mem _ hg0
    rw [List.mem_map] at hid0
    obtain ⟨e0, he0mem, he0id⟩ := hid0
    have he0stats : e0.stats.isSome := applyGo_stats_isSome d 0 b e0 he0mem
    have he0enr : e0 ∈ runBatches fetch (validGroups (buildGroups ts)) := by
      unfold runBatches
      exact List.mem_flatten_of_mem (List.getElem?_mem hproc) he0mem
    have hnd : ((runBatches fetch (validGroups (buildGroups ts))).map
        (fun g => g.id)).Nodup := by
      rw [runBatches_map_id]
      exact validGroups_ids_nodup _ (buildGroups_ids_nodup ts)
    unfold enrich at hg
    rw [List.mem_map] at hg
    obtain ⟨g1, _, hdef⟩ := hg
    rcases hfind : (runBatches fetch (validGroups (buildGroups ts))).find?
        (fun e => e.id == g1.id) with _ | e
    · rw [hfind] at hdef
      simp only [Option.getD_none] at hdef
      rw [List.find?_eq_none] at hfind
      exfalso
      apply hfind e0 he0enr
      rw [he0id, ← hid, ← hdef]
      simp
    · rw [hfind] at hdef
      simp only [Option.getD_some] at hdef
      have hemem := List.mem_of_find?_eq_some hfind
      have heq : e = e0 := List.inj_on_of_nodup_map hnd hemem he0enr (by
        rw [he0id, ← hid, ← hdef])
      rw [← hdef, heq]
      exact he0stats
  · intro g _ hinvalid hmem
    rw [validGroups, List.mem_filter] at hmem
    rw [hinvalid] at hmem
    simp at hmem
  · intro t ht
    by_cases ha : jsTruthy t.author = true
    · have hplan := ((groupPlan_three_tier t).2.1 ht ha).1
      have hid : (mkGroup t).id = "author/" ++ jsStr t.author := by
        simp [mkGroup, hplan]
      unfold isValidGroup
      rw [hid, sStartsWith_append_self "author/" (jsStr t.author)]
      simp
    · have ha' : jsTruthy t.author = false := by
        revert ha
        cases jsTruthy t.author <;> simp
      have hplan := ((groupPlan_three_tier t).2.2 ht ha').1
      have hid : (mkGroup t).id = "standalone/" ++ t.id := by
        simp [mkGroup, hplan]
      unfold isValidGroup
      rw [hid, sStartsWith_append_self "standalone/" t.id]
      simp

/-- Witness for C7 (amended): the single batch of one valid group, whose own
fetch succeeds, yields that group enriched. -/
theorem enrichment_amended_witness :
    ({ sampleRepoGroup with
        stats := some (populateStats sampleRepoData) } : ThemeGroup).stats.isSome
      = true :=
  (enrichment_amended [sampleRepoTheme] goodFetch).1 0 [sampleRepoGroup]
    (by decide) rfl sampleRepoGroup (by decide)
    { sampleRepoGroup with stats := some (populateStats sampleRepoData) }
    (by decide) (by decide)

/-! ## Claim C9 — the title fallback -/

/-- C9 counterexample: the descriptor built from the file named `".md"` with
no declared title has an *empty* title — the filename-derived fallback itself
is empty, so "the title attribute is a non-empty string" fails. -/
theorem title_empty_counterexample :
    standaloneEmptyTitleTheme.fileName = ".md" ∧
    standaloneEmptyTitleTheme.title = "" := by
  refine ⟨by decide, by decide⟩

/-- C9 (amended): the title is the declared front-matter title when that is
non-empty, else the filename-derived fallback (extension dropped
case-insensitively, leading date prefix stripped); it is non-empty whenever
that fallback is non-empty. -/
theorem title_fallback_amended (file : GHFile) (m : List (String × String))
    (h : String.mk (stripDateLead (stripMdExt file.name.toList)) ≠ "") :
    (buildTheme file m).title ≠ "" ∧
    (jsTruthy (fmField m "title") = false →
      (buildTheme file m).title =
        String.mk (stripDateLead (stripMdExt file.name.toList))) := by
  have ht : (buildTheme file m).title =
      if jsTruthy (fmField m "title") then jsStr (fmField m "title")
      else String.mk (stripDateLead (stripMdExt file.name.toList)) := rfl
  constructor
  · rw [ht]
    by_cases hd : jsTruthy (fmField m "title") = true
    · rw [if_pos hd]
      exact jsStr_ne_of_truthy hd
    · rw [if_neg hd]
      exact h
  · intro hd
    rw [ht, if_neg (by simp [hd])]

/-- Witness for C9 (amended): a dated filename with no declared title
produces the stripped, non-empty fallback title. -/
theorem title_fallback_amended_witness :
    (buildTheme { name := "2024-03-19-keepstyle.md", download_url := "" } []).title
      = "keepstyle" := by
  have h := (title_fallback_amended
    { name := "2024-03-19-keepstyle.md", download_url := "" } [] (by decide)).2
    (by decide)
  rw [h]
  decide

/-! ## Claim C8 — idempotence of the front-matter parser: helper lemmas -/

/-- The head surviving a `dropWhile` fails the predicate. -/
theorem head?_dropWhile_not (p : Char → Bool) (l : List Char) :
    ∀ c, (l.dropWhile p).head? = some c → p c = false := by
  induction l with
  | nil => intro c hc; simp at hc
  | cons a l ih =>
    intro c hc
    rw [List.dropWhile_cons] at hc
    by_cases ha : p a = true
    · rw [if_pos ha] at hc
      exact ih c hc
    · rw [if_neg ha] at hc
      simp only [List.head?_cons, Option.some.injEq] at hc
      rw [← hc]
      exact Bool.not_eq_true _ ▸ ha

/-- `dropWhile` keeps the last element when it keeps anything. -/
theorem getLast?_dropWhile (p : Char → Bool) (l : List Char)
    (h : l.dropWhile p ≠ []) : (l.dropWhile p).getLast? = l.getLast? := by
  induction l with
  | nil => simp at h
  | cons a l ih =>
    rw [List.dropWhile_cons] at h ⊢
    by_cases ha : p a = true
    · rw [if_pos ha] at h ⊢
      have hl : l ≠ [] := by
        intro hnil
        rw [hnil] at h
        simp at h
      rw [ih h]
      cases l with
      | nil => exact absurd rfl hl
      | cons b l => rw [List.getLast?_cons_cons]
    · rw [if_neg ha]

/-- Membership survives `dropWhile` removal. -/
theorem mem_of_mem_dropWhile (p : Char → Bool) (l : List Char) (c : Char)
    (h : c ∈ l.dropWhile p) : c ∈ l := by
  induction l with
  | nil => simp at h
  | cons a l ih =>
    rw [List.dropWhile_cons] at h
    by_cases ha : p a = true
    · rw [if_pos ha] at h
      exact List.mem_cons_of_mem _ (ih h)
    · rw [if_neg ha] at h
      exact h

/-- An element failing the predicate is kept by `dropWhile`. -/
theorem mem_dropWhile_of_mem (p : Char → Bool) (l : List Char) (c : Char)
    (hc : c ∈ l) (hp : p c = false) : c ∈ l.dropWhile p := by
  induction l with
  | nil => simp at hc
  | cons a l ih =>
    rw [List.dropWhile_cons]
    by_cases ha : p a = true
    · rw [if_pos ha]
      rcases List.mem_cons.1 hc with hc | hc
      · rw [hc] at hp
        rw [hp] at ha
        exact absurd ha (by simp)
      · exact ih hc
    · rw [if_neg ha]
      exact hc

/-- A list whose head fails the predicate is untouched by `dropWhile`. -/
theorem dropWhile_eq_self_of_head (p : Char → Bool) (l : List Char)
    (h : ∀ c, l.head? = some c → p c = false) : l.dropWhile p = l := by
  cases l with
  | nil => rfl
  | cons a l =>
    rw [List.dropWhile_cons, if_neg]
    rw [h a rfl]
    simp

/-- A list whose last element fails the predicate is untouched by
`dropTrailWhile`. -/
theorem dropTrailWhile_eq_self_of_last (p : Char → Bool) (l : List Char)
    (h : ∀ c, l.getLast? = some c → p c = false) : dropTrailWhile p l = l := by
  unfold dropTrailWhile
  rw [dropWhile_eq_self_of_head p l.reverse (by
    intro c hc
    rw [List.head?_reverse] at hc
    exact h c hc)]
  exact List.reverse_reverse l

/-- Membership survives `dropTrailWhile` removal. -/
theorem mem_of_mem_dropTrailWhile (p : Char → Bool) (l : List Char) (c : Char)
    (h : c ∈ dropTrailWhile p l) : c ∈ l := by
  unfold dropTrailWhile at h
  rw [List.mem_reverse] at h
  exact List.mem_reverse.1 (mem_of_mem_dropWhile p l.reverse c h)

/-- Membership of a non-whitespace character survives trimming. -/
theorem mem_trimL_of_mem (l : List Char) (c : Char) (hc : c ∈ l)
    (hp : isWSc c = false) : c ∈ trimL l := by
  unfold trimL dropTrailWhile
  rw [List.mem_reverse]
  exact mem_dropWhile_of_mem _ _ _
    (List.mem_reverse.2 (mem_dropWhile_of_mem _ _ _ hc hp)) hp

/-- Membership in a trimmed list implies membership in the original. -/
theorem mem_of_mem_trimL (l : List Char) (c : Char) (h : c ∈ trimL l) : c ∈ l :=
  mem_of_mem_dropWhile _ _ _ (mem_of_mem_dropTrailWhile _ _ _ h)

/-- The head of a trimmed list is not whitespace. -/
theorem trimL_head (l : List Char) :
    ∀ c, (trimL l).head? = some c → isWSc c = false := by
  intro c hc
  unfold trimL dropTrailWhile at hc
  rw [List.head?_reverse] at hc
  have hne : (l.dropWhile isWSc).reverse.dropWhile isWSc ≠ [] := by
    intro hnil
    rw [hnil] at hc
    simp at hc
  rw [getLast?_dropWhile _ _ hne, List.getLast?_reverse] at hc
  exact head?_dropWhile_not _ _ c hc

/-- The last element of a trimmed list is not whitespace. -/
theorem trimL_last (l : List Char) :
    ∀ c, (trimL l).getLast? = some c → isWSc c = false := by
  intro c hc
  unfold trimL dropTrailWhile at hc
  rw [List.getLast?_reverse] at hc
  exact head?_dropWhile_not _ _ c hc

/-- A list with non-whitespace ends is its own trim. -/
theorem trimL_eq_self (l : List Char)
    (h1 : ∀ c, l.head? = some c → isWSc c = false)
    (h2 : ∀ c, l.getLast? = some c → isWSc c = false) : trimL l = l := by
  unfold trimL
  rw [dropWhile_eq_self_of_head _ _ h1]
  exact dropTrailWhile_eq_self_of_last _ _ h2

/-- Trimming is idempotent. -/
theorem trimL_trimL (l : List Char) : trimL (trimL l) = trimL l :=
  trimL_eq_self _ (trimL_head l) (trimL_last l)

/-- Trimming a leading space off a list with non-whitespace ends. -/
theorem trimL_space_cons (v : List Char)
    (h1 : ∀ c, v.head? = some c → isWSc c = false)
    (h2 : ∀ c, v.getLast? = some c → isWSc c = false) : trimL (' ' :: v) = v := by
  unfold trimL
  rw [List.dropWhile_cons, if_pos (by decide), dropWhile_eq_self_of_head _ _ h1]
  exact dropTrailWhile_eq_self_of_last _ _ h2

/-- `splitOnChar` never produces the separator inside a segment. -/
theorem not_mem_splitOnChar (c : Char) (l : List Char) :
    ∀ m ∈ splitOnChar c l, c ∉ m := by
  induction l with
  | nil =>
    intro m hm
    simp only [splitOnChar, List.mem_singleton] at hm
    rw [hm]
    simp
  | cons x xs ih =>
    intro m hm
    by_cases hx : (x == c) = true
    · rw [splitOnChar, if_pos hx] at hm
      rcases List.mem_cons.1 hm with hm | hm
      · rw [hm]; simp
      · exact ih m hm
    · rw [splitOnChar, if_neg hx] at hm
      rcases hsp : splitOnChar c xs with _ | ⟨y, ys⟩
      · rw [hsp] at hm
        simp only [List.mem_singleton] at hm
        rw [hm]
        intro hcm
        rcases List.mem_singleton.1 hcm with h
        rw [h] at hx
        simp at hx
      · rw [hsp] at hm
        rcases List.mem_cons.1 hm with hm | hm
        · rw [hm]
          intro hcm
          rcases List.mem_cons.1 hcm with h | h
          · rw [h] at hx; simp at hx
          · exact ih y (by rw [hsp]; exact List.mem_cons_self _ _) h
        · exact ih m (by rw [hsp]; exact List.mem_cons_of_mem _ hm)

/-- Splitting at an explicit separator occurrence. -/
theorem splitOnChar_append (c : Char) (a b : List Char) (hc : c ∉ a) :
    splitOnChar c (a ++ c :: b) = a :: splitOnChar c b := by
  induction a with
  | nil =>
    simp only [List.nil_append, splitOnChar, beq_self_eq_true, if_pos]
  | cons x a ih =>
    have hx : (x == c) = false := by
      rw [beq_eq_false_iff_ne]
      intro hxc
      exact hc (by rw [hxc]; exact List.mem_cons_self _ _)
    have ha : c ∉ a := fun hm => hc (List.mem_cons_of_mem _ hm)
    rw [List.cons_append, splitOnChar, if_neg (by simp [hx]), ih ha]

/-- A separator-free list splits into itself. -/
theorem splitOnChar_single (c : Char) (a : List Char) (hc : c ∉ a) :
    splitOnChar c a = [a] := by
  induction a with
  | nil => rfl
  | cons x a ih =>
    have hx : (x == c) = false := by
      rw [beq_eq_false_iff_ne]
      intro hxc
      exact hc (by rw [hxc]; exact List.mem_cons_self _ _)
    have ha : c ∉ a := fun hm => hc (List.mem_cons_of_mem _ hm)
    rw [splitOnChar, if_neg (by simp [hx]), ih ha]

/-- Splitting a line at its first colon, when the colon position is
explicit. -/
theorem splitAtColon_append (k v : List Char) (hk : ':' ∉ k) :
    splitAtColon (k ++ ':' :: v) = some (k, v) := by
  induction k with
  | nil => simp [splitAtColon]
  | cons x k ih =>
    have hx : ¬(x = ':') := by
      intro hxc
      exact hk (by rw [hxc]; exact List.mem_cons_self _ _)
    have hk' : ':' ∉ k := fun hm => hk (List.mem_cons_of_mem _ hm)
    rw [List.cons_append, splitAtColon, if_neg hx, ih hk']
    rfl

/-- What a successful colon split tells us about the line. -/
theorem splitAtColon_spec (l k v : List Char) (h : splitAtColon l = some (k, v)) :
    ':' ∉ k ∧ l = k ++ ':' :: v := by
  induction l generalizing k v with
  | nil => simp [splitAtColon] at h
  | cons x xs ih =>
    by_cases hx : x = ':'
    · rw [splitAtColon, if_pos hx] at h
      simp only [Option.some.injEq, Prod.mk.injEq] at h
      rw [← h.1, ← h.2, hx]
      exact ⟨by simp, rfl⟩
    · rw [splitAtColon, if_neg hx] at h
      rcases hsp : splitAtColon xs with _ | ⟨k', v'⟩
      · rw [hsp] at h
        simp at h
      · rw [hsp] at h
        simp only [Option.map_some', Option.some.injEq, Prod.mk.injEq] at h
        obtain ⟨hk, hv⟩ := h
        obtain ⟨hk'c, hxs⟩ := ih k' v' hsp
        constructor
        · rw [← hk]
          intro hmem
          rcases List.mem_cons.1 hmem with hm | hm
          · exact hx hm.symm
          · exact hk'c hm
        · rw [← hk, ← hv, List.cons_append, hxs]

/-- Inserting a fresh key appends the pair. -/
theorem insertKV_append (m : List (List Char × List Char)) (k v : List Char)
    (h : k ∉ m.map Prod.fst) : insertKV m k v = m ++ [(k, v)] := by
  induction m with
  | nil => rfl
  | cons p m ih =>
    have hp : ¬(p.1 = k) := by
      intro hpk
      exact h (by rw [← hpk]; exact List.mem_map_of_mem _ (List.mem_cons_self _ _))
    have hm : k ∉ m.map Prod.fst := by
      intro hmem
      rw [List.mem_map] at hmem
      obtain ⟨q, hq, hqk⟩ := hmem
      exact h (by rw [← hqk]; exact List.mem_map_of_mem _ (List.mem_cons_of_mem _ hq))
    rw [insertKV, if_neg hp, ih hm, List.cons_append]

/-- Every pair of an insertion is an old pair or the inserted one. -/
theorem mem_insertKV (m : List (List Char × List Char)) (k v : List Char)
    (p : List Char × List Char) (h : p ∈ insertKV m k v) :
    p ∈ m ∨ p = (k, v) := by
  induction m with
  | nil =>
    simp only [insertKV, List.mem_singleton] at h
    exact Or.inr h
  | cons q m ih =>
    by_cases hq : q.1 = k
    · rw [insertKV, if_pos hq] at h
      rcases List.mem_cons.1 h with h | h
      · exact Or.inr h
      · exact Or.inl (List.mem_cons_of_mem _ h)
    · rw [insertKV, if_neg hq] at h
      rcases List.mem_cons.1 h with h | h
      · exact Or.inl (by rw [h]; exact List.mem_cons_self _ _)
      · rcases ih h with h | h
        · exact Or.inl (List.mem_cons_of_mem _ h)
        · exact Or.inr h

/-- The keys after insertion: unchanged on overwrite, extended on append. -/
theorem keys_insertKV (m : List (List Char × List Char)) (k v : List Char) :
    (insertKV m k v).map Prod.fst =
      (if k ∈ m.map Prod.fst then m.map Prod.fst else m.map Prod.fst ++ [k]) := by
  induction m with
  | nil => simp [insertKV]
  | cons p m ih =>
    by_cases hp : p.1 = k
    · rw [insertKV, if_pos hp]
      simp only [List.map_cons]
      rw [if_pos (by rw [hp]; exact List.mem_cons_self _ _), hp]
    · rw [insertKV, if_neg hp]
      simp only [List.map_cons, ih]
      by_cases hk : k ∈ m.map Prod.fst
      · rw [if_pos hk, if_pos (List.mem_cons_of_mem _ hk)]
      · rw [if_neg hk, if_neg (by
          intro hmem
          rcases List.mem_cons.1 hmem with h | h
          · exact hp h.symm
          · exact hk h), List.cons_append]

/-- Insertion preserves key uniqueness. -/
theorem nodup_keys_insertKV (m : List (List Char × List Char)) (k v : List Char)
    (h : (m.map Prod.fst).Nodup) : ((insertKV m k v).map Prod.fst).Nodup := by
  rw [keys_insertKV]
  by_cases hk : k ∈ m.map Prod.fst
  · rw [if_pos hk]
    exact h
  · rw [if_neg hk]
    rw [List.nodup_append]
    exact ⟨h, List.nodup_singleton k, by
      intro a ha hb
      rcases List.mem_singleton.1 hb with rfl
      exact hk ha⟩

/-- Segments stripped of a trailing carriage return keep their members. -/
theorem mem_of_mem_dropTrailingCR (l : List Char) (c : Char)
    (h : c ∈ dropTrailingCR l) : c ∈ l := by
  unfold dropTrailingCR at h
  by_cases hl : l.getLast? = some '\r'
  · rw [if_pos hl] at h
    rw [List.dropLast_eq_take] at h
    exact List.take_subset _ _ h
  · rw [if_neg hl] at h
    exact h

/-- `adjustCR` neither introduces characters into a segment. -/
theorem adjustCR_no_char (ch : Char) :
    ∀ ls : List (List Char), (∀ l ∈ ls, ch ∉ l) →
      ∀ l' ∈ adjustCR ls, ch ∉ l' := by
  intro ls
  induction ls with
  | nil => intro _ l' hl'; simp [adjustCR] at hl'
  | cons l ls ih =>
    intro h l' hl'
    cases ls with
    | nil =>
      simp only [adjustCR, List.mem_singleton] at hl'
      rw [hl']
      exact h l (List.mem_cons_self _ _)
    | cons l2 ls2 =>
      simp only [adjustCR, List.mem_cons] at hl'
      rcases hl' with hl' | hl'
      · rw [hl']
        intro hc
        exact h l (List.mem_cons_self _ _) (mem_of_mem_dropTrailingCR _ _ hc)
      · exact ih (fun q hq => h q (List.mem_cons_of_mem _ hq)) l' hl'

/-- `adjustCR` is the identity when no segment ends in a carriage return. -/
theorem adjustCR_eq_self :
    ∀ ls : List (List Char), (∀ l ∈ ls, l.getLast? ≠ some '\r') →
      adjustCR ls = ls := by
  intro ls
  induction ls with
  | nil => intro _; rfl
  | cons l ls ih =>
    intro h
    cases ls with
    | nil => rfl
    | cons l2 ls2 =>
      simp only [adjustCR]
      rw [ih (fun q hq => h q (List.mem_cons_of_mem _ hq))]
      unfold dropTrailingCR
      rw [if_neg (h l (List.mem_cons_self _ _))]

/-- No segment produced by the line splitter contains a newline. -/
theorem fmLines_no_newline (text : List Char) :
    ∀ l ∈ fmLines text, '\n' ∉ l := by
  unfold fmLines
  exact adjustCR_no_char '\n' _ (fun l hl => not_mem_splitOnChar '\n' text l hl)

/-! ## Claim C8 — well-formedness of parsed mappings -/

/-- Reading the decidable end check back as the two propositions. -/
theorem wfEndsB_spec (v : List Char) (h : wfEndsB v = true) :
    noWSHead v ∧ noWSLast v := by
  unfold wfEndsB at h
  rw [Bool.and_eq_true] at h
  constructor
  · intro c hc
    have h1 := h.1
    rw [hc] at h1
    simpa using h1
  · intro c hc
    have h2 := h.2
    rw [hc] at h2
    simpa using h2

/-- Unquoting only removes characters. -/
theorem mem_of_mem_stripQuotes (v : List Char) (c : Char)
    (h : c ∈ stripQuotes v) : c ∈ v := by
  unfold stripQuotes at h
  by_cases hq : quoteWrapped v = true
  · rw [if_pos hq] at h
    rw [List.dropLast_eq_take] at h
    exact List.drop_subset _ _ (List.take_subset _ _ h)
  · rw [if_neg hq] at h
    exact h

/-- The parser loop only produces well-formed keys and newline-free values,
with unique keys, provided the incoming lines are newline-free. -/
theorem parseFMLoop_wf :
    ∀ (lines : List (List Char)) (acc : List (List Char × List Char)),
      (∀ l ∈ lines, '\n' ∉ l) →
      (∀ p ∈ acc, wfKeyP p.1 ∧ '\n' ∉ p.2) →
      (acc.map Prod.fst).Nodup →
      (∀ p ∈ parseFMLoop lines acc, wfKeyP p.1 ∧ '\n' ∉ p.2) ∧
        ((parseFMLoop lines acc).map Prod.fst).Nodup := by
  intro lines
  induction lines with
  | nil =>
    intro acc _ h1 h2
    exact ⟨h1, h2⟩
  | cons line rest ih =>
    intro acc hlines hacc1 hacc2
    have hline : '\n' ∉ line := hlines line (List.mem_cons_self _ _)
    have hrest : ∀ l ∈ rest, '\n' ∉ l :=
      fun l hl => hlines l (List.mem_cons_of_mem _ hl)
    by_cases hd : trimL line = ['-', '-', '-']
    · simp only [parseFMLoop, if_pos hd]
      exact ⟨hacc1, hacc2⟩
    · rcases hsp : splitAtColon line with _ | ⟨k0, v0⟩
      · simp only [parseFMLoop, if_neg hd, hsp]
        exact ih acc hrest hacc1 hacc2
      · simp only [parseFMLoop, if_neg hd, hsp]
        obtain ⟨hk0, hl0⟩ := splitAtColon_spec line k0 v0 hsp
        have hknew : wfKeyP (trimL k0) := by
          refine ⟨trimL_trimL k0, ?_, ?_⟩
          · intro hm
            exact hk0 (mem_of_mem_trimL _ _ hm)
          · intro hm
            exact hline (by
              rw [hl0]
              exact List.mem_append_left _ (mem_of_mem_trimL _ _ hm))
        have hvnew : '\n' ∉ stripQuotes (trimL v0) := by
          intro hm
          exact hline (by
            rw [hl0]
            exact List.mem_append_right _ (List.mem_cons_of_mem _
              (mem_of_mem_trimL _ _ (mem_of_mem_stripQuotes _ _ hm))))
        apply ih _ hrest
        · intro p hp
          rcases mem_insertKV _ _ _ p hp with hp | hp
          · exact hacc1 p hp
          · rw [hp]
            exact ⟨hknew, hvnew⟩
        · exact nodup_keys_insertKV _ _ _ hacc2

/-- The parser only produces well-formed keys and newline-free values, with
unique keys. -/
theorem parseFrontmatterL_wf (text : List Char) :
    (∀ p ∈ parseFrontmatterL text, wfKeyP p.1 ∧ '\n' ∉ p.2) ∧
      ((parseFrontmatterL text).map Prod.fst).Nodup := by
  unfold parseFrontmatterL
  rcases hfl : fmLines text with _ | ⟨l0, rest⟩
  · simp [show trimL [] = [] from rfl, parseFMLoop]
  · simp only [List.headD_cons, List.tail_cons]
    by_cases hd : trimL l0 = ['-', '-', '-']
    · rw [if_pos hd]
      apply parseFMLoop_wf rest []
      · intro l hl
        exact fmLines_no_newline text l (by rw [hfl]; exact List.mem_cons_of_mem _ hl)
      · simp
      · simp
    · rw [if_neg hd]
      simp

/-! ## Claim C8 — parsing the re-serialized form -/

/-- A serialized line contains no newline when key and value do not. -/
theorem fmLineOf_no_newline (p : List Char × List Char)
    (hk : '\n' ∉ p.1) (hv : '\n' ∉ p.2) : '\n' ∉ fmLineOf p := by
  unfold fmLineOf
  intro h
  rcases List.mem_append.1 h with h | h
  · exact hk h
  · rcases List.mem_cons.1 h with h | h
    · exact absurd h (by decide)
    · rcases List.mem_cons.1 h with h | h
      · exact absurd h (by decide)
      · exact hv h

/-- A serialized line never ends in a carriage return when the value's last
character is not whitespace. -/
theorem fmLineOf_getLast_ne_cr (p : List Char × List Char) (hv : noWSLast p.2) :
    (fmLineOf p).getLast? ≠ some '\r' := by
  unfold fmLineOf
  intro hcontra
  rw [List.getLast?_append] at hcontra
  rcases hp2 : p.2 with _ | ⟨w, v⟩
  · rw [hp2] at hcontra
    simp at hcontra
  · rw [hp2, List.getLast?_cons_cons, List.getLast?_cons_cons] at hcontra
    rcases hgl : (w :: v).getLast? with _ | d
    · rw [List.getLast?_eq_none_iff] at hgl
      simp at hgl
    · rw [hgl, Option.or_some, Option.some.injEq] at hcontra
      have := hv '\r' (by rw [hp2, hgl, hcontra])
      exact absurd this (by decide)

/-- A serialized line never trims to the delimiter: it contains a colon. -/
theorem fmLineOf_trim_ne_delim (p : List Char × List Char) :
    trimL (fmLineOf p) ≠ ['-', '-', '-'] := by
  intro hd
  have hc : ':' ∈ fmLineOf p := by
    unfold fmLineOf
    exact List.mem_append_right _ (List.mem_cons_self _ _)
  have hmem := mem_trimL_of_mem _ _ hc (by decide)
  rw [hd] at hmem
  exact absurd hmem (by decide)

/-- Splitting the serialized body at newlines recovers the lines followed by
the closing delimiter. -/
theorem splitOnChar_serializeBody (m : List (List Char × List Char))
    (hm : ∀ p ∈ m, '\n' ∉ fmLineOf p) :
    splitOnChar '\n' ((m.map (fun p => fmLineOf p ++ ['\n'])).flatten ++
        ['-', '-', '-']) = m.map fmLineOf ++ [['-', '-', '-']] := by
  induction m with
  | nil =>
    simp only [List.map_nil, List.flatten_nil, List.nil_append]
    exact splitOnChar_single '\n' ['-', '-', '-'] (by decide)
  | cons p m ih =>
    simp only [List.map_cons, List.flatten_cons]
    rw [List.append_assoc, List.append_assoc, List.singleton_append,
      splitOnChar_append '\n' (fmLineOf p) _ (hm p (List.mem_cons_self _ _)),
      ih (fun q hq => hm q (List.mem_cons_of_mem _ hq))]
    rfl

/-- The line splitter on a serialized mapping: the opening delimiter, the
`key: value` lines, the closing delimiter. -/
theorem fmLines_serialize (m : List (List Char × List Char))
    (hm1 : ∀ p ∈ m, '\n' ∉ fmLineOf p)
    (hm2 : ∀ p ∈ m, (fmLineOf p).getLast? ≠ some '\r') :
    fmLines (serializeFML m) =
      ['-', '-', '-'] :: (m.map fmLineOf ++ [['-', '-', '-']]) := by
  unfold fmLines serializeFML
  have hsplit : splitOnChar '\n'
      (['-', '-', '-', '\n'] ++ (m.map (fun p => fmLineOf p ++ ['\n'])).flatten ++
        ['-', '-', '-']) =
      ['-', '-', '-'] :: (m.map fmLineOf ++ [['-', '-', '-']]) := by
    have h1 : (['-', '-', '-', '\n'] : List Char) ++
        (m.map (fun p => fmLineOf p ++ ['\n'])).flatten ++ ['-', '-', '-'] =
        ['-', '-', '-'] ++ '\n' ::
          ((m.map (fun p => fmLineOf p ++ ['\n'])).flatten ++ ['-', '-', '-']) := by
      simp
    rw [h1, splitOnChar_append '\n' ['-', '-', '-'] _ (by decide),
      splitOnChar_serializeBody m hm1]
  rw [hsplit]
  apply adjustCR_eq_self
  intro l hl
  rcases List.mem_cons.1 hl with hl | hl
  · rw [hl]
    decide
  · rcases List.mem_append.1 hl with hl | hl
    · rw [List.mem_map] at hl
      obtain ⟨p, hp, rfl⟩ := hl
      exact hm2 p hp
    · rw [List.mem_singleton.1 hl]
      decide

/-- Running the parser loop over serialized well-formed lines appends exactly
the serialized pairs to the accumulator. -/
theorem parseFMLoop_serialized :
    ∀ (m acc : List (List Char × List Char)),
      (∀ p ∈ m, wfPairP p) →
      (m.map Prod.fst).Nodup →
      (∀ p ∈ m, p.1 ∉ acc.map Prod.fst) →
      parseFMLoop (m.map fmLineOf ++ [['-', '-', '-']]) acc = acc ++ m := by
  intro m
  induction m with
  | nil =>
    intro acc _ _ _
    simp only [List.map_nil, List.nil_append, parseFMLoop, List.append_nil]
    rw [if_pos (by decide)]
  | cons p m ih =>
    intro acc hwf hnd hdisj
    obtain ⟨hkey, hvh, hvl, hvq, _⟩ := hwf p (List.mem_cons_self _ _)
    have hline : fmLineOf p = p.1 ++ ':' :: (' ' :: p.2) := rfl
    simp only [List.map_cons, List.cons_append, parseFMLoop]
    rw [if_neg (fmLineOf_trim_ne_delim p), hline,
      splitAtColon_append p.1 (' ' :: p.2) hkey.2.1]
    have htrimk : trimL p.1 = p.1 := hkey.1
    have htrimv : trimL (' ' :: p.2) = p.2 := trimL_space_cons p.2 hvh hvl
    have hstrip : stripQuotes p.2 = p.2 := by
      unfold stripQuotes
      rw [if_neg (by rw [hvq]; simp)]
    show parseFMLoop (List.map fmLineOf m ++ [['-', '-', '-']])
      (insertKV acc (trimL p.1) (stripQuotes (trimL (' ' :: p.2)))) = acc ++ p :: m
    rw [htrimk, htrimv, hstrip]
    have hfresh : p.1 ∉ acc.map Prod.fst := hdisj p (List.mem_cons_self _ _)
    rw [insertKV_append acc p.1 p.2 hfresh]
    have hm' : ∀ q ∈ m, wfPairP q := fun q hq => hwf q (List.mem_cons_of_mem _ hq)
    have hnd' : (m.map Prod.fst).Nodup := by
      rw [List.map_cons, List.nodup_cons] at hnd
      exact hnd.2
    have hnotin : p.1 ∉ m.map Prod.fst := by
      rw [List.map_cons, List.nodup_cons] at hnd
      exact hnd.1
    have hdisj' : ∀ q ∈ m, q.1 ∉ (acc ++ [(p.1, p.2)]).map Prod.fst := by
      intro q hq hqin
      rw [List.map_append, List.mem_append] at hqin
      rcases hqin with hqin | hqin
      · exact hdisj q (List.mem_cons_of_mem _ hq) hqin
      · simp only [List.map_cons, List.map_nil, List.mem_singleton] at hqin
        exact hnotin (hqin ▸ List.mem_map_of_mem Prod.fst hq)
    rw [ih (acc ++ [(p.1, p.2)]) hm' hnd' hdisj', List.append_assoc,
      List.singleton_append]

/-- Parsing the serialization of a well-formed mapping with unique keys gives
the mapping back. -/
theorem parse_serializeFML (m : List (List Char × List Char))
    (hm : ∀ p ∈ m, wfPairP p) (hnd : (m.map Prod.fst).Nodup) :
    parseFrontmatterL (serializeFML m) = m := by
  unfold parseFrontmatterL
  rw [fmLines_serialize m
    (fun p hp => fmLineOf_no_newline p ((hm p hp).1.2.2) ((hm p hp).2.2.2.2))
    (fun p hp => fmLineOf_getLast_ne_cr p ((hm p hp).2.2.1))]
  simp only [List.headD_cons, List.tail_cons]
  rw [if_pos (by decide)]
  have h := parseFMLoop_serialized m [] hm hnd (by simp)
  rw [h]
  rfl

/-- C8 counterexample: the parser is not idempotent under re-serialization —
a value that still begins and ends with a quote character after the first
unquoting loses one more quote layer when the re-serialized text is parsed
again. -/
theorem frontmatter_quote_counterexample :
    parseFrontmatterL doubleQuotedText = [("a".toList, "\"x\"".toList)] ∧
    parseFrontmatterL (serializeFML (parseFrontmatterL doubleQuotedText)) =
      [("a".toList, "x".toList)] ∧
    parseFrontmatterL (serializeFML (parseFrontmatterL doubleQuotedText)) ≠
      parseFrontmatterL doubleQuotedText := by
  refine ⟨by decide, by decide, by decide⟩

/-- C8 (amended): for every descriptor text beginning with the delimiter
line, re-serializing the parsed mapping as one `key: value` line per entry
between delimiter lines and parsing again yields the same mapping — provided
no parsed value still begins and ends with a matching quote character (it
would be unquoted once more) and no parsed value begins or ends with
whitespace (a condition only quote-stripping can break; such a value would be
trimmed further). -/
theorem frontmatter_idempotent_amended (text : List Char)
    (_hdelim : trimL ((fmLines text).headD []) = ['-', '-', '-'])
    (hq : ∀ p ∈ parseFrontmatterL text,
      quoteWrapped p.2 = false ∧ wfEndsB p.2 = true) :
    parseFrontmatterL (serializeFML (parseFrontmatterL text)) =
      parseFrontmatterL text := by
  apply parse_serializeFML
  · intro p hp
    obtain ⟨hq1, hq2⟩ := hq p hp
    obtain ⟨hends1, hends2⟩ := wfEndsB_spec p.2 hq2
    obtain ⟨hkey, hval⟩ := (parseFrontmatterL_wf text).1 p hp
    exact ⟨hkey, hends1, hends2, hq1, hval⟩
  · exact (parseFrontmatterL_wf text).2

/-- Witness for C8 (amended): a plain two-entry front matter block parses to
the same mapping after re-serialization. -/
theorem frontmatter_idempotent_amended_witness :
    parseFrontmatterL (serializeFML
        (parseFrontmatterL "---\ntitle: hello\nauthor: jane\n---".toList)) =
      parseFrontmatterL "---\ntitle: hello\nauthor: jane\n---".toList :=
  frontmatter_idempotent_amended "---\ntitle: hello\nauthor: jane\n---".toList
    (by decide) (by decide)

end ThemeGallery
